import Mathlib

/-!
Verification of the group-wide prefix-scan engine of
src/library/rocprim/include/block/detail/block_scan_warp_scan.hpp
(class rocprim::detail::block_scan_warp_scan).

The class is shallowly embedded: a lane is identified with its flat rank
r < bs (BlockSize), the shared scratch array storage.warp_prefixes is a
function Nat -> A, and the concurrent phases of calculate_warp_prefixes_
become explicit state transformers separated by the barriers of the code.
The collaborators that live outside src/ (rocprim::warp_scan,
warp_shuffle_up, warp_id, lane_id, get_min_warp_size, next_power_of_two)
are modelled from the spec, which treats them as given; each such
definition carries a comment saying so.
-/

namespace RocPrim

variable {α : Type}

/-- Modelled from the spec: detail::get_min_warp_size (detail/various.hpp is
not under src/). Per the spec, SubgroupSize = min(GroupSize, hardware
lockstep width). -/
def get_min_warp_size (block_size hardware : Nat) : Nat := min block_size hardware

/-- Fuel-based helper for next_power_of_two, structurally recursive so that
it evaluates by kernel reduction. -/
def npt_rec : Nat → Nat → Nat
  | 0, _ => 1
  | fuel + 1, n => if n ≤ 1 then 1 else 2 * npt_rec fuel ((n + 1) / 2)

/-- Modelled from the spec: detail::next_power_of_two (detail/various.hpp is
not under src/): the least power of two that is at least n. -/
def next_power_of_two (n : Nat) : Nat := npt_rec n n

/-- warp_size_ member of block_scan_warp_scan: the selected warp size,
min(BlockSize, hardware warp size). The first model parameter hw is the
hardware warp size, the second bs is BlockSize. -/
def warp_size_ (hw bs : Nat) : Nat := get_min_warp_size bs hw

/-- warps_no_ member: number of warps in the block, ceil(bs / warp_size). -/
def warps_no_ (hw bs : Nat) : Nat := (bs + warp_size_ hw bs - 1) / warp_size_ hw bs

/-- Modelled from the spec: rocprim::warp_id (intrinsics are not under
src/); subgroup index w = r / SubgroupSize. -/
def warp_id (hw bs r : Nat) : Nat := r / warp_size_ hw bs

/-- Modelled from the spec: rocprim::lane_id; lane = r mod SubgroupSize. -/
def lane_id (hw bs r : Nat) : Nat := r % warp_size_ hw bs

/-- Rank of the real last lane of warp w: min((w+1)*warp_size, BlockSize) - 1,
exactly the guard expression of calculate_warp_prefixes_. -/
def last_lane (hw bs w : Nat) : Nat := min ((w + 1) * warp_size_ hw bs) bs - 1

/-- Left-to-right combination f lo, f (lo+1), ..., f (lo+k) under op. -/
def foldSeg (op : α → α → α) (f : Nat → α) (lo : Nat) : Nat → α
  | 0 => f lo
  | k + 1 => op (foldSeg op f lo k) (f (lo + k + 1))

/-- Modelled from the spec: the external Subgroup Scan primitive
(rocprim::warp_scan, not under src/), assumed correct and given: each lane r
of a logical warp of width ws receives the left-to-right combination of the
values of the lanes of its warp with rank at most r. -/
def warp_inclusive_scan (ws : Nat) (op : α → α → α) (v : Nat → α) (r : Nat) : α :=
  foldSeg op v (ws * (r / ws)) (r % ws)

/-- Modelled from the spec: warp_shuffle_up(value, 1, ws) (intrinsics are
not under src/): each lane receives the value of the lane one rank lower in
its warp; the value received by the first lane of a warp is unspecified and
is modelled by the junk parameter. -/
def warp_shuffle_up_1 (ws : Nat) (junk : Nat → α) (v : Nat → α) (r : Nat) : α :=
  if r % ws = 0 then junk r else v (r - 1)

/-- One lane's conditional write of the total-capture step of
calculate_warp_prefixes_: lane r writes its local inclusive value into
warp_prefixes[warp_id] when flat_tid == min((warp_id+1)*warp_size, bs) - 1. -/
def capture_write (hw bs : Nat) (incl : Nat → α) (r : Nat) (s : Nat → α) : Nat → α :=
  if r = last_lane hw bs (warp_id hw bs r) then
    Function.update s (warp_id hw bs r) (incl r)
  else s

/-- The whole total-capture step: the conditional writes of all lanes below
n (the order is irrelevant because the writer of each index is unique). -/
def capture_phase (hw bs : Nat) (incl : Nat → α) : Nat → (Nat → α) → Nat → α
  | 0, s => s
  | n + 1, s => capture_write hw bs incl n (capture_phase hw bs incl n s)

/-- The per-lane value fed to the warp scan of the prefix step: the first
warps_no_ lanes read warp_prefixes at their own rank; the padding lanes of
the power-of-two logical warp hold unspecified values (pad). -/
def prefix_values (hw bs : Nat) (pad s : Nat → α) (j : Nat) : α :=
  if j < warps_no_ hw bs then s j else pad j

/-- The prefix step of calculate_warp_prefixes_: lanes with
flat_tid < warps_no_ scan the captured warp totals with the warp_scan
primitive of width next_power_of_two(warps_no_) and write the result back at
their own rank; other entries are left as they are. -/
def prefix_phase (hw bs : Nat) (op : α → α → α) (pad s : Nat → α) (w : Nat) : α :=
  if w < warps_no_ hw bs then
    warp_inclusive_scan (next_power_of_two (warps_no_ hw bs)) op (prefix_values hw bs pad s) w
  else s w

/-- calculate_warp_prefixes_: total capture (all bs lanes), barrier, prefix
scan over the captured totals, barrier; s0 is the content of the
caller-supplied storage when the call starts. -/
def calculate_warp_prefixes (hw bs : Nat) (op : α → α → α) (incl pad s0 : Nat → α) :
    Nat → α :=
  prefix_phase hw bs op pad (capture_phase hw bs incl bs s0)

/-- Contents of storage.warp_prefixes after a scan entry point ran on input:
calculate_warp_prefixes_ applied to the warp-level inclusive scan results. -/
def scan_scratch (hw bs : Nat) (op : α → α → α) (input pad s0 : Nat → α) : Nat → α :=
  calculate_warp_prefixes hw bs op (warp_inclusive_scan (warp_size_ hw bs) op input) pad s0

/-- inclusive_scan_ (single value per lane): warp scan, calculate warp
prefixes, then lanes of warps other than warp 0 combine
warp_prefixes[warp_id - 1] into their local result. -/
def inclusive_scan_single (hw bs : Nat) (op : α → α → α) (input pad s0 : Nat → α)
    (r : Nat) : α :=
  if warp_id hw bs r ≠ 0 then
    op (scan_scratch hw bs op input pad s0 (warp_id hw bs r - 1))
      (warp_inclusive_scan (warp_size_ hw bs) op input r)
  else warp_inclusive_scan (warp_size_ hw bs) op input r

/-- warp_prefix local variable of exclusive_scan_ (with init): init for
warp 0, scan_op(init, warp_prefixes[warp_id-1]) for the other warps. -/
def excl_warp_pre (hw bs : Nat) (op : α → α → α) (input : Nat → α) (init : α)
    (pad s0 : Nat → α) (q : Nat) : α :=
  if warp_id hw bs q ≠ 0 then
    op init (scan_scratch hw bs op input pad s0 (warp_id hw bs q - 1))
  else init

/-- Value of output after the line output = scan_op(warp_prefix, output) of
exclusive_scan_ (with init), as a function of the lane. -/
def excl_combined (hw bs : Nat) (op : α → α → α) (input : Nat → α) (init : α)
    (pad s0 : Nat → α) (q : Nat) : α :=
  op (excl_warp_pre hw bs op input init pad s0 q)
    (warp_inclusive_scan (warp_size_ hw bs) op input q)

/-- exclusive_scan_ with initial value: shift the combined values up by one
lane, and the first lane of each warp outputs warp_prefix instead. -/
def exclusive_scan_single_init (hw bs : Nat) (op : α → α → α) (input : Nat → α)
    (init : α) (junk pad s0 : Nat → α) (r : Nat) : α :=
  if lane_id hw bs r = 0 then excl_warp_pre hw bs op input init pad s0 r
  else warp_shuffle_up_1 (warp_size_ hw bs) junk (excl_combined hw bs op input init pad s0) r

/-- warp_prefix local variable of exclusive_scan_ without init: it is left
uninitialized for warp 0 (modelled by uninit). -/
def excl_warp_pre_noinit (hw bs : Nat) (op : α → α → α) (input uninit pad s0 : Nat → α)
    (q : Nat) : α :=
  if warp_id hw bs q ≠ 0 then scan_scratch hw bs op input pad s0 (warp_id hw bs q - 1)
  else uninit q

/-- Value of output before the shuffle in exclusive_scan_ without init: only
warps other than warp 0 combine the warp prefix into their local result. -/
def excl_combined_noinit (hw bs : Nat) (op : α → α → α) (input uninit pad s0 : Nat → α)
    (q : Nat) : α :=
  if warp_id hw bs q ≠ 0 then
    op (excl_warp_pre_noinit hw bs op input uninit pad s0 q)
      (warp_inclusive_scan (warp_size_ hw bs) op input q)
  else warp_inclusive_scan (warp_size_ hw bs) op input q

/-- exclusive_scan_ with unknown initial value. -/
def exclusive_scan_single_noinit (hw bs : Nat) (op : α → α → α)
    (input uninit junk pad s0 : Nat → α) (r : Nat) : α :=
  if lane_id hw bs r = 0 then excl_warp_pre_noinit hw bs op input uninit pad s0 r
  else warp_shuffle_up_1 (warp_size_ hw bs) junk (excl_combined_noinit hw bs op input uninit pad s0) r

/-- thread_input of the ItemsPerThread inclusive_scan: each lane reduces its
own K items left to right. -/
def thread_scan_input (K : Nat) (op : α → α → α) (input : Nat → Nat → α) (q : Nat) : α :=
  foldSeg op (input q) 0 (K - 1)

/-- output[0] of the ItemsPerThread inclusive_scan: the thread prefix from
the seedless exclusive scan is combined with input[0], except for flat rank
0 which outputs input[0] unmodified. -/
def items_out_first (hw bs K : Nat) (op : α → α → α) (input : Nat → Nat → α)
    (uninit junk pad s0 : Nat → α) (r : Nat) : α :=
  if r = 0 then input r 0
  else
    op (exclusive_scan_single_noinit hw bs op (thread_scan_input K op input) uninit junk pad s0 r)
      (input r 0)

/-- The ItemsPerThread inclusive_scan: output[i] for lane r; items after the
first are produced by the sequential thread-local scan. -/
def inclusive_scan_items (hw bs K : Nat) (op : α → α → α) (input : Nat → Nat → α)
    (uninit junk pad s0 : Nat → α) (r : Nat) : Nat → α
  | 0 => items_out_first hw bs K op input uninit junk pad s0 r
  | i + 1 => op (inclusive_scan_items hw bs K op input uninit junk pad s0 r i) (input r (i + 1))

/-- Reduction returned by the single-value inclusive_scan overloads with a
reduction argument: storage.warp_prefixes[warps_no_ - 1] after the scan. -/
def inclusive_scan_single_reduction (hw bs : Nat) (op : α → α → α)
    (input pad s0 : Nat → α) : α :=
  scan_scratch hw bs op input pad s0 (warps_no_ hw bs - 1)

/-- Reduction returned by the seeded exclusive_scan overloads with a
reduction argument. -/
def exclusive_scan_single_init_reduction (hw bs : Nat) (op : α → α → α)
    (input : Nat → α) (init : α) (pad s0 : Nat → α) : α :=
  scan_scratch hw bs op input pad s0 (warps_no_ hw bs - 1)

/-- Reduction returned by the ItemsPerThread inclusive_scan overloads with a
reduction argument: the scratch is the one of the scan of the per-lane
reduced values. -/
def inclusive_scan_items_reduction (hw bs K : Nat) (op : α → α → α)
    (input : Nat → Nat → α) (pad s0 : Nat → α) : α :=
  scan_scratch hw bs op (thread_scan_input K op input) pad s0 (warps_no_ hw bs - 1)

/-- Flattened view of the per-lane item arrays: position p holds item p mod K
of lane p / K. -/
def flat_input (K : Nat) (input : Nat → Nat → α) (p : Nat) : α := input (p / K) (p % K)

/-- Reference function written from the words of the spec: the left-to-right
combination of the inputs at positions 0..r inclusive. -/
def spec_combine (op : α → α → α) (f : Nat → α) : Nat → α
  | 0 => f 0
  | r + 1 => op (spec_combine op f r) (f (r + 1))

/-- A shared-scratch access, for the phase/barrier trace of a scan call. -/
inductive MemAcc where
  | write (idx : Nat)
  | read (idx : Nat)
deriving DecidableEq

/-- Accesses a lane performs on storage.warp_prefixes before the first
syncthreads of calculate_warp_prefixes_: the conditional total-capture
write. -/
def phase0_acc (hw bs r : Nat) : List MemAcc :=
  if r = last_lane hw bs (warp_id hw bs r) then [MemAcc.write (warp_id hw bs r)] else []

/-- Accesses between the two syncthreads of calculate_warp_prefixes_: the
first warps_no_ lanes read their own entry and write it back. -/
def phase1_acc (hw bs r : Nat) : List MemAcc :=
  if r < warps_no_ hw bs then [MemAcc.read r, MemAcc.write r] else []

/-- Accesses after the second syncthreads in inclusive_scan_: warps other
than warp 0 read warp_prefixes[warp_id - 1]. -/
def phase2_acc_inclusive (hw bs r : Nat) : List MemAcc :=
  if warp_id hw bs r ≠ 0 then [MemAcc.read (warp_id hw bs r - 1)] else []

/-- Constant function used by witnesses. -/
def zeroF : Nat → Nat := fun _ => 0

/-- Constant junk function used by witnesses for unspecified values. -/
def junkF : Nat → Nat := fun _ => 99

/-- Addition operator used by witnesses. -/
def addOp : Nat → Nat → Nat := fun a b => a + b

/-- Ramp input used by witnesses: lane r holds r + 1. -/
def rampF : Nat → Nat := fun r => r + 1

/-- The lane inputs of the spec's multi-item scenario. -/
def c7_input : Nat → Nat → Nat :=
  fun r i => (([[1, 2], [3, 4], [5, 6], [7, 8]].getD r []).getD i 0 : Nat)

/-- Multi-item ramp input used by witnesses: lane r item i holds r*3 + i + 1. -/
def gridF : Nat → Nat → Nat := fun r i => r * 3 + i + 1

theorem warp_size_pos (hw bs : Nat) (hhw : 0 < hw) (hbs : 0 < bs) : 0 < warp_size_ hw bs :=
  lt_min hbs hhw

theorem warps_no_pos {hw bs : Nat} (hhw : 0 < hw) (hbs : 0 < bs) : 0 < warps_no_ hw bs := by
  have hws := warp_size_pos hw bs hhw hbs
  show 0 < (bs + warp_size_ hw bs - 1) / warp_size_ hw bs
  exact (Nat.le_div_iff_mul_le hws).mpr (by omega)

theorem mul_lt_of_lt_warps_no {hw bs w : Nat} (hhw : 0 < hw) (hbs : 0 < bs)
    (h : w < warps_no_ hw bs) : (w + 1) * warp_size_ hw bs ≤ bs + warp_size_ hw bs - 1 := by
  have hws := warp_size_pos hw bs hhw hbs
  exact (Nat.le_div_iff_mul_le hws).mp (Nat.succ_le_of_lt h)

theorem mul_lt_bs_of_lt_warps_no {hw bs w : Nat} (hhw : 0 < hw) (hbs : 0 < bs)
    (h : w < warps_no_ hw bs) : w * warp_size_ hw bs < bs := by
  have hws := warp_size_pos hw bs hhw hbs
  have h2 := mul_lt_of_lt_warps_no hhw hbs h
  have h3 : (w + 1) * warp_size_ hw bs = w * warp_size_ hw bs + warp_size_ hw bs := by ring
  omega

theorem div_lt_warps_no {hw bs r : Nat} (hhw : 0 < hw) (hbs : 0 < bs)
    (hr : r < bs) : r / warp_size_ hw bs < warps_no_ hw bs := by
  have hws := warp_size_pos hw bs hhw hbs
  have h1 : r / warp_size_ hw bs * warp_size_ hw bs ≤ r := Nat.div_mul_le_self r _
  have h2 : (r / warp_size_ hw bs + 1) * warp_size_ hw bs ≤ bs + warp_size_ hw bs - 1 := by
    have h3 : (r / warp_size_ hw bs + 1) * warp_size_ hw bs
        = r / warp_size_ hw bs * warp_size_ hw bs + warp_size_ hw bs := by ring
    omega
  exact Nat.lt_of_succ_le ((Nat.le_div_iff_mul_le hws).mpr h2)

theorem last_lane_lt {hw bs : Nat} (hbs : 0 < bs) (w : Nat) : last_lane hw bs w < bs := by
  have h := Nat.min_le_right ((w + 1) * warp_size_ hw bs) bs
  show min ((w + 1) * warp_size_ hw bs) bs - 1 < bs
  omega

theorem last_lane_repr {hw bs w : Nat} (hhw : 0 < hw) (hbs : 0 < bs)
    (hW : w < warps_no_ hw bs) :
    warp_size_ hw bs * w ≤ last_lane hw bs w ∧
      last_lane hw bs w < warp_size_ hw bs * w + warp_size_ hw bs := by
  have hws := warp_size_pos hw bs hhw hbs
  have hmul : (w + 1) * warp_size_ hw bs = warp_size_ hw bs * w + warp_size_ hw bs := by ring
  have hlt : w * warp_size_ hw bs < bs := mul_lt_bs_of_lt_warps_no hhw hbs hW
  have hcomm : w * warp_size_ hw bs = warp_size_ hw bs * w := by ring
  show warp_size_ hw bs * w ≤ min ((w + 1) * warp_size_ hw bs) bs - 1 ∧
    min ((w + 1) * warp_size_ hw bs) bs - 1 < warp_size_ hw bs * w + warp_size_ hw bs
  rcases Nat.le_total ((w + 1) * warp_size_ hw bs) bs with h | h
  · rw [Nat.min_eq_left h]
    omega
  · rw [Nat.min_eq_right h]
    omega

theorem last_lane_div_mod {hw bs w : Nat} (hhw : 0 < hw) (hbs : 0 < bs)
    (hW : w < warps_no_ hw bs) :
    last_lane hw bs w / warp_size_ hw bs = w ∧
      last_lane hw bs w % warp_size_ hw bs = last_lane hw bs w - warp_size_ hw bs * w := by
  have hws := warp_size_pos hw bs hhw hbs
  obtain ⟨h1, h2⟩ := last_lane_repr hhw hbs hW
  have hrepr : warp_size_ hw bs * w + (last_lane hw bs w - warp_size_ hw bs * w)
      = last_lane hw bs w := Nat.add_sub_cancel' h1
  have hm : last_lane hw bs w - warp_size_ hw bs * w < warp_size_ hw bs := by omega
  have hdiv : last_lane hw bs w / warp_size_ hw bs = w := by
    rw [← hrepr, Nat.mul_add_div hws, Nat.div_eq_of_lt hm, Nat.add_zero]
  refine ⟨hdiv, ?_⟩
  have hdm := Nat.div_add_mod (last_lane hw bs w) (warp_size_ hw bs)
  rw [hdiv] at hdm
  omega

theorem last_lane_full {hw bs w : Nat} (hhw : 0 < hw) (hbs : 0 < bs)
    (hW : w + 1 < warps_no_ hw bs) :
    last_lane hw bs w = (w + 1) * warp_size_ hw bs - 1 := by
  have hlt : (w + 1) * warp_size_ hw bs < bs := mul_lt_bs_of_lt_warps_no hhw hbs hW
  show min ((w + 1) * warp_size_ hw bs) bs - 1 = (w + 1) * warp_size_ hw bs - 1
  rw [Nat.min_eq_left (Nat.le_of_lt hlt)]

theorem bs_le_warps_no_mul {hw bs : Nat} (hhw : 0 < hw) (hbs : 0 < bs) :
    bs ≤ warps_no_ hw bs * warp_size_ hw bs := by
  have hws := warp_size_pos hw bs hhw hbs
  have hwn : warps_no_ hw bs = (bs + warp_size_ hw bs - 1) / warp_size_ hw bs := rfl
  have hdm := Nat.div_add_mod (bs + warp_size_ hw bs - 1) (warp_size_ hw bs)
  have hmlt : (bs + warp_size_ hw bs - 1) % warp_size_ hw bs < warp_size_ hw bs :=
    Nat.mod_lt _ hws
  rw [← hwn] at hdm
  have hc : warp_size_ hw bs * warps_no_ hw bs = warps_no_ hw bs * warp_size_ hw bs := by ring
  omega

theorem last_lane_last {hw bs : Nat} (hhw : 0 < hw) (hbs : 0 < bs) :
    last_lane hw bs (warps_no_ hw bs - 1) = bs - 1 := by
  have hW := warps_no_pos hhw hbs
  have hge := bs_le_warps_no_mul hhw hbs
  have hsucc : warps_no_ hw bs - 1 + 1 = warps_no_ hw bs := Nat.succ_pred_eq_of_pos hW
  show min ((warps_no_ hw bs - 1 + 1) * warp_size_ hw bs) bs - 1 = bs - 1
  rw [hsucc, Nat.min_eq_right hge]

theorem foldSeg_append {α : Type} (op : α → α → α)
    (hassoc : ∀ a b c : α, op (op a b) c = op a (op b c))
    (f : Nat → α) (lo k m : Nat) :
    op (foldSeg op f lo k) (foldSeg op f (lo + k + 1) m) = foldSeg op f lo (k + 1 + m) := by
  induction m with
  | zero => rfl
  | succ m ih =>
    show op (foldSeg op f lo k) (op (foldSeg op f (lo + k + 1) m) (f (lo + k + 1 + m + 1)))
      = op (foldSeg op f lo (k + 1 + m)) (f (lo + (k + 1 + m) + 1))
    rw [← hassoc, ih]
    have h : lo + k + 1 + m + 1 = lo + (k + 1 + m) + 1 := by omega
    rw [h]

theorem foldSeg_congr {α : Type} (op : α → α → α) (f g : Nat → α) (lo : Nat) :
    ∀ k, (∀ j, j ≤ k → f (lo + j) = g (lo + j)) → foldSeg op f lo k = foldSeg op g lo k := by
  intro k
  induction k with
  | zero =>
    intro h
    simpa using h 0 (Nat.le_refl 0)
  | succ k ih =>
    intro h
    show op (foldSeg op f lo k) (f (lo + k + 1)) = op (foldSeg op g lo k) (g (lo + k + 1))
    rw [ih (fun j hj => h j (Nat.le_succ_of_le hj))]
    have h2 := h (k + 1) (Nat.le_refl _)
    have h3 : lo + (k + 1) = lo + k + 1 := by omega
    rw [h3] at h2
    rw [h2]

theorem spec_combine_eq_foldSeg {α : Type} (op : α → α → α) (f : Nat → α) :
    ∀ r, spec_combine op f r = foldSeg op f 0 r := by
  intro r
  induction r with
  | zero => rfl
  | succ r ih =>
    show op (spec_combine op f r) (f (r + 1)) = op (foldSeg op f 0 r) (f (0 + r + 1))
    rw [ih, Nat.zero_add]

theorem npt_rec_ge : ∀ fuel n, n ≤ fuel → n ≤ npt_rec fuel n := by
  intro fuel
  induction fuel with
  | zero =>
    intro n h
    show n ≤ 1
    omega
  | succ fuel ih =>
    intro n h
    show n ≤ if n ≤ 1 then 1 else 2 * npt_rec fuel ((n + 1) / 2)
    by_cases h1 : n ≤ 1
    · rw [if_pos h1]; exact h1
    · rw [if_neg h1]
      have hm : (n + 1) / 2 ≤ fuel := by omega
      have h2 := ih ((n + 1) / 2) hm
      omega

theorem npt_rec_pow : ∀ fuel n, ∃ k, npt_rec fuel n = 2 ^ k := by
  intro fuel
  induction fuel with
  | zero => intro n; exact ⟨0, rfl⟩
  | succ fuel ih =>
    intro n
    show ∃ k, (if n ≤ 1 then 1 else 2 * npt_rec fuel ((n + 1) / 2)) = 2 ^ k
    by_cases h1 : n ≤ 1
    · rw [if_pos h1]; exact ⟨0, rfl⟩
    · rw [if_neg h1]
      obtain ⟨k, hk⟩ := ih ((n + 1) / 2)
      refine ⟨k + 1, ?_⟩
      rw [hk, pow_succ]
      ring

theorem le_next_power_of_two (n : Nat) : n ≤ next_power_of_two n :=
  npt_rec_ge n n (Nat.le_refl n)

theorem next_power_of_two_pow (n : Nat) : ∃ k, next_power_of_two n = 2 ^ k :=
  npt_rec_pow n n

theorem capture_phase_frozen {α : Type} {hw bs w : Nat} (hhw : 0 < hw) (hbs : 0 < bs)
    (hge : warps_no_ hw bs ≤ w) (incl : Nat → α) :
    ∀ n, n ≤ bs → ∀ s : Nat → α, capture_phase hw bs incl n s w = s w := by
  intro n
  induction n with
  | zero => intro _ s; rfl
  | succ n ih =>
    intro hn s
    show capture_write hw bs incl n (capture_phase hw bs incl n s) w = s w
    have hrec := ih (Nat.le_of_succ_le hn) s
    unfold capture_write
    by_cases hg : n = last_lane hw bs (warp_id hw bs n)
    · rw [if_pos hg]
      have hlt : warp_id hw bs n < warps_no_ hw bs :=
        div_lt_warps_no hhw hbs (Nat.lt_of_succ_le hn)
      rw [Function.update_noteq (by omega) _ _]
      exact hrec
    · rw [if_neg hg]
      exact hrec

theorem capture_phase_eq {α : Type} {hw bs w : Nat} (hhw : 0 < hw) (hbs : 0 < bs)
    (hW : w < warps_no_ hw bs) (incl : Nat → α) :
    ∀ n, last_lane hw bs w < n → ∀ s : Nat → α,
      capture_phase hw bs incl n s w = incl (last_lane hw bs w) := by
  intro n
  induction n with
  | zero => intro h; exact absurd h (Nat.not_lt_zero _)
  | succ n ih =>
    intro hn s
    show capture_write hw bs incl n (capture_phase hw bs incl n s) w
      = incl (last_lane hw bs w)
    by_cases hlast : last_lane hw bs w < n
    · unfold capture_write
      by_cases hg : n = last_lane hw bs (warp_id hw bs n)
      · rw [if_pos hg]
        by_cases hww : warp_id hw bs n = w
        · exfalso
          rw [hww] at hg
          omega
        · rw [Function.update_noteq (fun h => hww h.symm) _ _]
          exact ih hlast s
      · rw [if_neg hg]
        exact ih hlast s
    · have hEq : n = last_lane hw bs w := by omega
      have hwid : warp_id hw bs n = w := by
        rw [hEq]
        exact (last_lane_div_mod hhw hbs hW).1
      have hg : n = last_lane hw bs (warp_id hw bs n) := by rw [hwid, ← hEq]
      unfold capture_write
      rw [if_pos hg, hwid, Function.update_same, hEq]

theorem prefix_phase_eq {α : Type} {hw bs v : Nat} (hv : v < warps_no_ hw bs)
    (op : α → α → α) (pad s : Nat → α) :
    prefix_phase hw bs op pad s v = foldSeg op (prefix_values hw bs pad s) 0 v := by
  have hvP : v < next_power_of_two (warps_no_ hw bs) :=
    Nat.lt_of_lt_of_le hv (le_next_power_of_two _)
  show (if v < warps_no_ hw bs then
      warp_inclusive_scan (next_power_of_two (warps_no_ hw bs)) op (prefix_values hw bs pad s) v
    else s v) = _
  rw [if_pos hv]
  show foldSeg op (prefix_values hw bs pad s)
      (next_power_of_two (warps_no_ hw bs) * (v / next_power_of_two (warps_no_ hw bs)))
      (v % next_power_of_two (warps_no_ hw bs)) = _
  rw [Nat.div_eq_of_lt hvP, Nat.mod_eq_of_lt hvP, Nat.mul_zero]

theorem scan_scratch_totals {α : Type} {hw bs v : Nat} (hhw : 0 < hw) (hbs : 0 < bs)
    (hv : v < warps_no_ hw bs) (op : α → α → α) (input pad s0 : Nat → α) :
    scan_scratch hw bs op input pad s0 v
      = foldSeg op
          (fun u => warp_inclusive_scan (warp_size_ hw bs) op input (last_lane hw bs u)) 0 v := by
  show prefix_phase hw bs op pad
      (capture_phase hw bs (warp_inclusive_scan (warp_size_ hw bs) op input) bs s0) v = _
  rw [prefix_phase_eq hv]
  apply foldSeg_congr
  intro j hj
  have hjW : 0 + j < warps_no_ hw bs := by omega
  show prefix_values hw bs pad _ (0 + j) = _
  unfold prefix_values
  rw [if_pos hjW]
  exact capture_phase_eq hhw hbs hjW _ bs (last_lane_lt hbs _) s0

theorem totals_fold {α : Type} {hw bs : Nat} (hhw : 0 < hw) (hbs : 0 < bs)
    (op : α → α → α) (hassoc : ∀ a b c : α, op (op a b) c = op a (op b c))
    (input : Nat → α) :
    ∀ v, v < warps_no_ hw bs →
      foldSeg op
          (fun u => warp_inclusive_scan (warp_size_ hw bs) op input (last_lane hw bs u)) 0 v
        = foldSeg op input 0 (last_lane hw bs v) := by
  have hws := warp_size_pos hw bs hhw hbs
  intro v
  induction v with
  | zero =>
    intro hv
    obtain ⟨hdiv, hmod⟩ := last_lane_div_mod hhw hbs hv
    show foldSeg op input
        (warp_size_ hw bs * (last_lane hw bs 0 / warp_size_ hw bs))
        (last_lane hw bs 0 % warp_size_ hw bs) = _
    rw [hdiv, hmod, Nat.mul_zero, Nat.sub_zero]
  | succ v ih =>
    intro hv
    have hvW : v < warps_no_ hw bs := by omega
    show op
        (foldSeg op
          (fun u => warp_inclusive_scan (warp_size_ hw bs) op input (last_lane hw bs u)) 0 v)
        (warp_inclusive_scan (warp_size_ hw bs) op input (last_lane hw bs (0 + v + 1))) = _
    rw [ih hvW]
    have hz : 0 + v + 1 = v + 1 := by omega
    rw [hz]
    obtain ⟨hdiv, hmod⟩ := last_lane_div_mod hhw hbs hv
    have hfull : last_lane hw bs v = (v + 1) * warp_size_ hw bs - 1 := last_lane_full hhw hbs hv
    show op (foldSeg op input 0 (last_lane hw bs v))
        (foldSeg op input
          (warp_size_ hw bs * (last_lane hw bs (v + 1) / warp_size_ hw bs))
          (last_lane hw bs (v + 1) % warp_size_ hw bs)) = _
    rw [hdiv, hmod, hfull]
    have hrepr := (last_lane_repr hhw hbs hv).1
    have hmulpos : 0 < (v + 1) * warp_size_ hw bs := Nat.mul_pos (Nat.succ_pos v) hws
    have hcomm : (v + 1) * warp_size_ hw bs = warp_size_ hw bs * (v + 1) := by ring
    have happ := foldSeg_append op hassoc input 0 ((v + 1) * warp_size_ hw bs - 1)
      (last_lane hw bs (v + 1) - warp_size_ hw bs * (v + 1))
    have hlo : 0 + ((v + 1) * warp_size_ hw bs - 1) + 1 = warp_size_ hw bs * (v + 1) := by
      omega
    have hcnt : (v + 1) * warp_size_ hw bs - 1 + 1
        + (last_lane hw bs (v + 1) - warp_size_ hw bs * (v + 1)) = last_lane hw bs (v + 1) := by
      omega
    rw [hlo, hcnt] at happ
    exact happ

theorem scan_scratch_spec {α : Type} {hw bs v : Nat} (hhw : 0 < hw) (hbs : 0 < bs)
    (hv : v < warps_no_ hw bs) (op : α → α → α)
    (hassoc : ∀ a b c : α, op (op a b) c = op a (op b c)) (input pad s0 : Nat → α) :
    scan_scratch hw bs op input pad s0 v = foldSeg op input 0 (last_lane hw bs v) :=
  (scan_scratch_totals hhw hbs hv op input pad s0).trans
    (totals_fold hhw hbs op hassoc input v hv)

theorem mod_eq_self_of_div_eq_zero {hw bs r : Nat} (hhw : 0 < hw) (hbs : 0 < bs)
    (h0 : r / warp_size_ hw bs = 0) : r % warp_size_ hw bs = r := by
  have hws := warp_size_pos hw bs hhw hbs
  have hdm := Nat.div_add_mod r (warp_size_ hw bs)
  rw [h0, Nat.mul_zero, Nat.zero_add] at hdm
  exact hdm

theorem inclusive_single_spec {α : Type} {hw bs r : Nat} (hhw : 0 < hw) (hbs : 0 < bs)
    (hr : r < bs) (op : α → α → α)
    (hassoc : ∀ a b c : α, op (op a b) c = op a (op b c)) (input pad s0 : Nat → α) :
    inclusive_scan_single hw bs op input pad s0 r = foldSeg op input 0 r := by
  have hws := warp_size_pos hw bs hhw hbs
  show (if warp_id hw bs r ≠ 0 then
      op (scan_scratch hw bs op input pad s0 (warp_id hw bs r - 1))
        (warp_inclusive_scan (warp_size_ hw bs) op input r)
    else warp_inclusive_scan (warp_size_ hw bs) op input r) = _
  by_cases h0 : warp_id hw bs r = 0
  · rw [if_neg (by simp [h0])]
    have hdiv : r / warp_size_ hw bs = 0 := h0
    have hmod : r % warp_size_ hw bs = r := mod_eq_self_of_div_eq_zero hhw hbs hdiv
    show foldSeg op input (warp_size_ hw bs * (r / warp_size_ hw bs)) (r % warp_size_ hw bs) = _
    rw [hdiv, hmod, Nat.mul_zero]
  · rw [if_pos h0]
    have hwW : warp_id hw bs r < warps_no_ hw bs := div_lt_warps_no hhw hbs hr
    have hw1 : 0 < warp_id hw bs r := Nat.pos_of_ne_zero h0
    have hsucc : warp_id hw bs r - 1 + 1 = warp_id hw bs r := Nat.succ_pred_eq_of_pos hw1
    have hprevW : warp_id hw bs r - 1 < warps_no_ hw bs := by omega
    rw [scan_scratch_spec hhw hbs hprevW op hassoc input pad s0]
    have hfull : last_lane hw bs (warp_id hw bs r - 1)
        = (warp_id hw bs r - 1 + 1) * warp_size_ hw bs - 1 :=
      last_lane_full hhw hbs (by rw [hsucc]; exact hwW)
    rw [hsucc] at hfull
    rw [hfull]
    show op (foldSeg op input 0 (warp_id hw bs r * warp_size_ hw bs - 1))
        (foldSeg op input (warp_size_ hw bs * (r / warp_size_ hw bs)) (r % warp_size_ hw bs)) = _
    have hdm := Nat.div_add_mod r (warp_size_ hw bs)
    have hidm : warp_size_ hw bs * warp_id hw bs r = warp_size_ hw bs * (r / warp_size_ hw bs) := rfl
    have hcomm : warp_id hw bs r * warp_size_ hw bs = warp_size_ hw bs * warp_id hw bs r := by
      ring
    have hmulpos : 0 < warp_size_ hw bs * warp_id hw bs r := Nat.mul_pos hws hw1
    have happ := foldSeg_append op hassoc input 0 (warp_id hw bs r * warp_size_ hw bs - 1)
      (r % warp_size_ hw bs)
    have hlo : 0 + (warp_id hw bs r * warp_size_ hw bs - 1) + 1
        = warp_size_ hw bs * (r / warp_size_ hw bs) := by omega
    have hcnt : warp_id hw bs r * warp_size_ hw bs - 1 + 1 + r % warp_size_ hw bs = r := by
      omega
    rw [hlo, hcnt] at happ
    exact happ

theorem pred_div_mod {hw bs r : Nat} (hhw : 0 < hw) (hbs : 0 < bs)
    (hl : r % warp_size_ hw bs ≠ 0) :
    (r - 1) / warp_size_ hw bs = r / warp_size_ hw bs ∧
      (r - 1) % warp_size_ hw bs = r % warp_size_ hw bs - 1 := by
  have hws := warp_size_pos hw bs hhw hbs
  have hdm := Nat.div_add_mod r (warp_size_ hw bs)
  have hmlt : r % warp_size_ hw bs < warp_size_ hw bs := Nat.mod_lt r hws
  have hrepr : r - 1
      = warp_size_ hw bs * (r / warp_size_ hw bs) + (r % warp_size_ hw bs - 1) := by omega
  have hlt1 : r % warp_size_ hw bs - 1 < warp_size_ hw bs := by omega
  constructor
  · rw [hrepr, Nat.mul_add_div hws, Nat.div_eq_of_lt hlt1, Nat.add_zero]
  · rw [hrepr, Nat.mul_add_mod, Nat.mod_eq_of_lt hlt1]

theorem warp_ne_zero_of_lane0 {hw bs r : Nat} (hhw : 0 < hw) (hbs : 0 < bs)
    (h1 : 0 < r) (hl : lane_id hw bs r = 0) : warp_id hw bs r ≠ 0 := by
  intro h
  have hdm := Nat.div_add_mod r (warp_size_ hw bs)
  have h0' : r / warp_size_ hw bs = 0 := h
  have hl' : r % warp_size_ hw bs = 0 := hl
  rw [h0'] at hdm
  omega

theorem lane0_mul {hw bs r : Nat} (hhw : 0 < hw) (hbs : 0 < bs)
    (hl : lane_id hw bs r = 0) : warp_id hw bs r * warp_size_ hw bs = r := by
  have hdm := Nat.div_add_mod r (warp_size_ hw bs)
  have hl' : r % warp_size_ hw bs = 0 := hl
  have hc : warp_id hw bs r * warp_size_ hw bs
      = warp_size_ hw bs * (r / warp_size_ hw bs) := by
    have h : warp_id hw bs r = r / warp_size_ hw bs := rfl
    rw [h]; ring
  omega

theorem scratch_pred_spec {α : Type} {hw bs r : Nat} (hhw : 0 < hw) (hbs : 0 < bs)
    (op : α → α → α) (hassoc : ∀ a b c : α, op (op a b) c = op a (op b c))
    (input pad s0 : Nat → α) (hr : r < bs) (h0 : warp_id hw bs r ≠ 0) :
    scan_scratch hw bs op input pad s0 (warp_id hw bs r - 1)
      = foldSeg op input 0 (warp_id hw bs r * warp_size_ hw bs - 1) := by
  have hwW : warp_id hw bs r < warps_no_ hw bs := div_lt_warps_no hhw hbs hr
  have hw1 : 0 < warp_id hw bs r := Nat.pos_of_ne_zero h0
  have hsucc : warp_id hw bs r - 1 + 1 = warp_id hw bs r := Nat.succ_pred_eq_of_pos hw1
  have hprevW : warp_id hw bs r - 1 < warps_no_ hw bs := by omega
  rw [scan_scratch_spec hhw hbs hprevW op hassoc input pad s0]
  have hfull := last_lane_full hhw hbs (w := warp_id hw bs r - 1) (by rw [hsucc]; exact hwW)
  rw [hsucc] at hfull
  rw [hfull]

theorem append_pred {α : Type} {hw bs r : Nat} (hhw : 0 < hw) (hbs : 0 < bs)
    (op : α → α → α) (hassoc : ∀ a b c : α, op (op a b) c = op a (op b c))
    (input : Nat → α) (hl : r % warp_size_ hw bs ≠ 0) (h0 : warp_id hw bs r ≠ 0) :
    op (foldSeg op input 0 (warp_id hw bs r * warp_size_ hw bs - 1))
        (foldSeg op input (warp_size_ hw bs * (r / warp_size_ hw bs))
          (r % warp_size_ hw bs - 1))
      = foldSeg op input 0 (r - 1) := by
  have hws := warp_size_pos hw bs hhw hbs
  have hdm := Nat.div_add_mod r (warp_size_ hw bs)
  have hw1 : 0 < warp_id hw bs r := Nat.pos_of_ne_zero h0
  have hc : warp_id hw bs r * warp_size_ hw bs
      = warp_size_ hw bs * (r / warp_size_ hw bs) := by
    have h : warp_id hw bs r = r / warp_size_ hw bs := rfl
    rw [h]; ring
  have hl2 : 0 < r % warp_size_ hw bs := Nat.pos_of_ne_zero hl
  have hmul1 : 0 < warp_id hw bs r * warp_size_ hw bs := Nat.mul_pos hw1 hws
  have happ := foldSeg_append op hassoc input 0 (warp_id hw bs r * warp_size_ hw bs - 1)
    (r % warp_size_ hw bs - 1)
  have hlo : 0 + (warp_id hw bs r * warp_size_ hw bs - 1) + 1
      = warp_size_ hw bs * (r / warp_size_ hw bs) := by omega
  have hcnt : warp_id hw bs r * warp_size_ hw bs - 1 + 1 + (r % warp_size_ hw bs - 1)
      = r - 1 := by omega
  rw [hlo, hcnt] at happ
  exact happ

theorem excl_init_lane0 {α : Type} {hw bs r : Nat} (op : α → α → α) (input : Nat → α)
    (init : α) (junk pad s0 : Nat → α) (hl : lane_id hw bs r = 0) :
    exclusive_scan_single_init hw bs op input init junk pad s0 r
      = excl_warp_pre hw bs op input init pad s0 r := by
  show (if lane_id hw bs r = 0 then _ else _) = _
  rw [if_pos hl]

theorem excl_init_shift {α : Type} {hw bs r : Nat} (op : α → α → α) (input : Nat → α)
    (init : α) (junk pad s0 : Nat → α) (hl : lane_id hw bs r ≠ 0) :
    exclusive_scan_single_init hw bs op input init junk pad s0 r
      = excl_combined hw bs op input init pad s0 (r - 1) := by
  have hl' : r % warp_size_ hw bs ≠ 0 := hl
  show (if lane_id hw bs r = 0 then _ else _) = _
  rw [if_neg hl]
  unfold warp_shuffle_up_1
  rw [if_neg hl']

theorem excl_noinit_lane0 {α : Type} {hw bs r : Nat} (op : α → α → α)
    (input uninit junk pad s0 : Nat → α) (hl : lane_id hw bs r = 0) :
    exclusive_scan_single_noinit hw bs op input uninit junk pad s0 r
      = excl_warp_pre_noinit hw bs op input uninit pad s0 r := by
  show (if lane_id hw bs r = 0 then _ else _) = _
  rw [if_pos hl]

theorem excl_noinit_shift {α : Type} {hw bs r : Nat} (op : α → α → α)
    (input uninit junk pad s0 : Nat → α) (hl : lane_id hw bs r ≠ 0) :
    exclusive_scan_single_noinit hw bs op input uninit junk pad s0 r
      = excl_combined_noinit hw bs op input uninit pad s0 (r - 1) := by
  have hl' : r % warp_size_ hw bs ≠ 0 := hl
  show (if lane_id hw bs r = 0 then _ else _) = _
  rw [if_neg hl]
  unfold warp_shuffle_up_1
  rw [if_neg hl']

theorem excl_combined_noinit_w0 {α : Type} {hw bs q : Nat} (op : α → α → α)
    (input uninit pad s0 : Nat → α) (h0 : warp_id hw bs q = 0) :
    excl_combined_noinit hw bs op input uninit pad s0 q
      = warp_inclusive_scan (warp_size_ hw bs) op input q := by
  unfold excl_combined_noinit
  rw [if_neg (by simp [h0])]

theorem excl_combined_noinit_w {α : Type} {hw bs q : Nat} (op : α → α → α)
    (input uninit pad s0 : Nat → α) (h0 : warp_id hw bs q ≠ 0) :
    excl_combined_noinit hw bs op input uninit pad s0 q
      = op (scan_scratch hw bs op input pad s0 (warp_id hw bs q - 1))
          (warp_inclusive_scan (warp_size_ hw bs) op input q) := by
  unfold excl_combined_noinit excl_warp_pre_noinit
  rw [if_pos h0, if_pos h0]

theorem exclusive_init_spec {α : Type} {hw bs r : Nat} (hhw : 0 < hw) (hbs : 0 < bs)
    (hr : r < bs) (op : α → α → α)
    (hassoc : ∀ a b c : α, op (op a b) c = op a (op b c))
    (input : Nat → α) (init : α) (junk pad s0 : Nat → α) :
    exclusive_scan_single_init hw bs op input init junk pad s0 r
      = if r = 0 then init else op init (foldSeg op input 0 (r - 1)) := by
  have hws := warp_size_pos hw bs hhw hbs
  by_cases hl : lane_id hw bs r = 0
  · rw [excl_init_lane0 op input init junk pad s0 hl]
    unfold excl_warp_pre
    by_cases h0 : warp_id hw bs r = 0
    · have hr0 : r = 0 := by
        have hdm := Nat.div_add_mod r (warp_size_ hw bs)
        have h0' : r / warp_size_ hw bs = 0 := h0
        have hl' : r % warp_size_ hw bs = 0 := hl
        rw [h0'] at hdm
        omega
      rw [if_neg (by simp [h0]), if_pos hr0]
    · have hrne : r ≠ 0 := by
        intro h
        apply h0
        rw [h]
        exact Nat.zero_div _
      rw [if_pos h0, if_neg hrne]
      rw [scratch_pred_spec hhw hbs op hassoc input pad s0 hr h0]
      rw [lane0_mul hhw hbs hl]
  · rw [excl_init_shift op input init junk pad s0 hl]
    have hl' : r % warp_size_ hw bs ≠ 0 := hl
    have hrne : r ≠ 0 := by
      intro h
      apply hl'
      rw [h]
      exact Nat.zero_mod _
    obtain ⟨hpd, hpm⟩ := pred_div_mod hhw hbs hl'
    have hwid : warp_id hw bs (r - 1) = warp_id hw bs r := hpd
    unfold excl_combined excl_warp_pre
    rw [hwid, if_neg hrne]
    by_cases h0 : warp_id hw bs r = 0
    · rw [if_neg (by simp [h0])]
      show op init
          (foldSeg op input (warp_size_ hw bs * ((r - 1) / warp_size_ hw bs))
            ((r - 1) % warp_size_ hw bs)) = _
      have hd0 : (r - 1) / warp_size_ hw bs = 0 := by rw [hpd]; exact h0
      have hm := mod_eq_self_of_div_eq_zero hhw hbs hd0
      rw [hd0, hm, Nat.mul_zero]
    · rw [if_pos h0]
      rw [scratch_pred_spec hhw hbs op hassoc input pad s0 hr h0]
      show op (op init (foldSeg op input 0 (warp_id hw bs r * warp_size_ hw bs - 1)))
          (foldSeg op input (warp_size_ hw bs * ((r - 1) / warp_size_ hw bs))
            ((r - 1) % warp_size_ hw bs)) = _
      rw [hpd, hpm, hassoc]
      congr 1
      exact append_pred hhw hbs op hassoc input hl' h0

theorem exclusive_noinit_spec {α : Type} {hw bs r : Nat} (hhw : 0 < hw) (hbs : 0 < bs)
    (h1 : 0 < r) (hr : r < bs) (op : α → α → α)
    (hassoc : ∀ a b c : α, op (op a b) c = op a (op b c))
    (input uninit junk pad s0 : Nat → α) :
    exclusive_scan_single_noinit hw bs op input uninit junk pad s0 r
      = foldSeg op input 0 (r - 1) := by
  have hws := warp_size_pos hw bs hhw hbs
  by_cases hl : lane_id hw bs r = 0
  · have h0 : warp_id hw bs r ≠ 0 := warp_ne_zero_of_lane0 hhw hbs h1 hl
    rw [excl_noinit_lane0 op input uninit junk pad s0 hl]
    unfold excl_warp_pre_noinit
    rw [if_pos h0]
    rw [scratch_pred_spec hhw hbs op hassoc input pad s0 hr h0]
    rw [lane0_mul hhw hbs hl]
  · rw [excl_noinit_shift op input uninit junk pad s0 hl]
    have hl' : r % warp_size_ hw bs ≠ 0 := hl
    obtain ⟨hpd, hpm⟩ := pred_div_mod hhw hbs hl'
    have hwid : warp_id hw bs (r - 1) = warp_id hw bs r := hpd
    by_cases h0 : warp_id hw bs r = 0
    · rw [excl_combined_noinit_w0 op input uninit pad s0 (by rw [hwid]; exact h0)]
      show foldSeg op input (warp_size_ hw bs * ((r - 1) / warp_size_ hw bs))
          ((r - 1) % warp_size_ hw bs) = _
      have hd0 : (r - 1) / warp_size_ hw bs = 0 := by rw [hpd]; exact h0
      have hm := mod_eq_self_of_div_eq_zero hhw hbs hd0
      rw [hd0, hm, Nat.mul_zero]
    · rw [excl_combined_noinit_w op input uninit pad s0 (by rw [hwid]; exact h0)]
      rw [hwid]
      rw [scratch_pred_spec hhw hbs op hassoc input pad s0 hr h0]
      show op (foldSeg op input 0 (warp_id hw bs r * warp_size_ hw bs - 1))
          (foldSeg op input (warp_size_ hw bs * ((r - 1) / warp_size_ hw bs))
            ((r - 1) % warp_size_ hw bs)) = _
      rw [hpd, hpm]
      exact append_pred hhw hbs op hassoc input hl' h0

theorem exclusive_noinit_zero {α : Type} {hw bs : Nat} (op : α → α → α)
    (input uninit junk pad s0 : Nat → α) :
    exclusive_scan_single_noinit hw bs op input uninit junk pad s0 0 = uninit 0 := by
  have hl : lane_id hw bs 0 = 0 := Nat.zero_mod _
  rw [excl_noinit_lane0 op input uninit junk pad s0 hl]
  unfold excl_warp_pre_noinit
  rw [if_neg (by simp [warp_id, Nat.zero_div])]

theorem exclusive_noinit_indep {α : Type} {hw bs r : Nat} (hhw : 0 < hw) (hbs : 0 < bs)
    (h1 : 0 < r) (op : α → α → α) (input uninit junk uninit' junk' pad s0 : Nat → α) :
    exclusive_scan_single_noinit hw bs op input uninit junk pad s0 r
      = exclusive_scan_single_noinit hw bs op input uninit' junk' pad s0 r := by
  by_cases hl : lane_id hw bs r = 0
  · have h0 : warp_id hw bs r ≠ 0 := warp_ne_zero_of_lane0 hhw hbs h1 hl
    rw [excl_noinit_lane0 op input uninit junk pad s0 hl,
      excl_noinit_lane0 op input uninit' junk' pad s0 hl]
    unfold excl_warp_pre_noinit
    rw [if_pos h0, if_pos h0]
  · rw [excl_noinit_shift op input uninit junk pad s0 hl,
      excl_noinit_shift op input uninit' junk' pad s0 hl]
    by_cases h0 : warp_id hw bs (r - 1) = 0
    · rw [excl_combined_noinit_w0 op input uninit pad s0 h0,
        excl_combined_noinit_w0 op input uninit' pad s0 h0]
    · rw [excl_combined_noinit_w op input uninit pad s0 h0,
        excl_combined_noinit_w op input uninit' pad s0 h0]

theorem scan_scratch_indep {α : Type} {hw bs v : Nat} (hhw : 0 < hw) (hbs : 0 < bs)
    (hv : v < warps_no_ hw bs) (op : α → α → α) (input pad s0 s0' : Nat → α) :
    scan_scratch hw bs op input pad s0 v = scan_scratch hw bs op input pad s0' v := by
  rw [scan_scratch_totals hhw hbs hv op input pad s0,
    scan_scratch_totals hhw hbs hv op input pad s0']

theorem flat_input_at {α : Type} {K : Nat} (hK : 0 < K) (input : Nat → Nat → α)
    (r i : Nat) (hi : i < K) : flat_input K input (r * K + i) = input r i := by
  unfold flat_input
  have h1 : r * K + i = i + r * K := by ring
  rw [h1, Nat.add_mul_div_right i r hK, Nat.div_eq_of_lt hi, Nat.zero_add,
    Nat.add_mul_mod_self_right, Nat.mod_eq_of_lt hi]

theorem foldSeg_shift {α : Type} (op : α → α → α) (f : Nat → α) (lo : Nat) :
    ∀ k, foldSeg op (fun j => f (lo + j)) 0 k = foldSeg op f lo k := by
  intro k
  induction k with
  | zero =>
    show f (lo + 0) = f lo
    rw [Nat.add_zero]
  | succ k ih =>
    show op (foldSeg op (fun j => f (lo + j)) 0 k) (f (lo + (0 + k + 1)))
      = op (foldSeg op f lo k) (f (lo + k + 1))
    rw [ih]
    have h : lo + (0 + k + 1) = lo + k + 1 := by omega
    rw [h]

theorem thread_fold {α : Type} {K : Nat} (hK : 0 < K) (op : α → α → α)
    (hassoc : ∀ a b c : α, op (op a b) c = op a (op b c)) (input : Nat → Nat → α) :
    ∀ n, foldSeg op (thread_scan_input K op input) 0 n
      = foldSeg op (flat_input K input) 0 (n * K + (K - 1)) := by
  intro n
  induction n with
  | zero =>
    show foldSeg op (input 0) 0 (K - 1) = foldSeg op (flat_input K input) 0 (0 * K + (K - 1))
    rw [Nat.zero_mul, Nat.zero_add]
    apply foldSeg_congr
    intro j hj
    simp only [Nat.zero_add]
    have h := flat_input_at hK input 0 j (by omega)
    rw [Nat.zero_mul, Nat.zero_add] at h
    exact h.symm
  | succ n ih =>
    show op (foldSeg op (thread_scan_input K op input) 0 n)
        (thread_scan_input K op input (0 + n + 1)) = _
    rw [ih, Nat.zero_add]
    have hseg : thread_scan_input K op input (n + 1)
        = foldSeg op (flat_input K input) ((n + 1) * K) (K - 1) := by
      show foldSeg op (input (n + 1)) 0 (K - 1) = _
      rw [← foldSeg_shift op (flat_input K input) ((n + 1) * K) (K - 1)]
      apply foldSeg_congr
      intro j hj
      simp only [Nat.zero_add]
      exact (flat_input_at hK input (n + 1) j (by omega)).symm
    rw [hseg]
    have hmul : (n + 1) * K = n * K + K := by ring
    have happ := foldSeg_append op hassoc (flat_input K input) 0 (n * K + (K - 1)) (K - 1)
    have hlo : 0 + (n * K + (K - 1)) + 1 = (n + 1) * K := by omega
    have hcnt : n * K + (K - 1) + 1 + (K - 1) = (n + 1) * K + (K - 1) := by omega
    rw [hlo, hcnt] at happ
    exact happ

theorem items_spec {α : Type} {hw bs K r : Nat} (hhw : 0 < hw) (hbs : 0 < bs) (hK : 0 < K)
    (op : α → α → α) (hassoc : ∀ a b c : α, op (op a b) c = op a (op b c))
    (input : Nat → Nat → α) (uninit junk pad s0 : Nat → α) (hr : r < bs) :
    ∀ i, i < K → inclusive_scan_items hw bs K op input uninit junk pad s0 r i
      = foldSeg op (flat_input K input) 0 (r * K + i) := by
  intro i
  induction i with
  | zero =>
    intro _
    show items_out_first hw bs K op input uninit junk pad s0 r = _
    unfold items_out_first
    by_cases hr0 : r = 0
    · rw [if_pos hr0, hr0]
      have hc : 0 * K + 0 = 0 := by omega
      rw [hc]
      show input 0 0 = input (0 / K) (0 % K)
      rw [Nat.zero_div, Nat.zero_mod]
    · rw [if_neg hr0]
      have h1 : 0 < r := Nat.pos_of_ne_zero hr0
      rw [exclusive_noinit_spec hhw hbs h1 hr op hassoc _ uninit junk pad s0]
      rw [thread_fold hK op hassoc input (r - 1)]
      have hmul : r * K = (r - 1) * K + K := by
        have h2 : r - 1 + 1 = r := Nat.succ_pred_eq_of_pos h1
        calc r * K = (r - 1 + 1) * K := by rw [h2]
          _ = (r - 1) * K + K := by ring
      have hcount : r * K + 0 = (r - 1) * K + (K - 1) + 1 := by omega
      rw [hcount]
      show op (foldSeg op (flat_input K input) 0 ((r - 1) * K + (K - 1))) (input r 0)
        = op (foldSeg op (flat_input K input) 0 ((r - 1) * K + (K - 1)))
            (flat_input K input (0 + ((r - 1) * K + (K - 1)) + 1))
      congr 1
      have hz : 0 + ((r - 1) * K + (K - 1)) + 1 = r * K := by omega
      rw [hz]
      have h := flat_input_at hK input r 0 hK
      rw [Nat.add_zero] at h
      exact h.symm
  | succ i ih =>
    intro hi
    have hiK : i < K := by omega
    show op (inclusive_scan_items hw bs K op input uninit junk pad s0 r i) (input r (i + 1))
      = _
    rw [ih hiK]
    have hc : r * K + (i + 1) = r * K + i + 1 := by omega
    rw [hc]
    show op (foldSeg op (flat_input K input) 0 (r * K + i)) (input r (i + 1))
      = op (foldSeg op (flat_input K input) 0 (r * K + i))
          (flat_input K input (0 + (r * K + i) + 1))
    congr 1
    have hz : 0 + (r * K + i) + 1 = r * K + (i + 1) := by omega
    rw [hz]
    exact (flat_input_at hK input r (i + 1) hi).symm

theorem reduction_spec {α : Type} {hw bs : Nat} (hhw : 0 < hw) (hbs : 0 < bs)
    (op : α → α → α) (hassoc : ∀ a b c : α, op (op a b) c = op a (op b c))
    (input pad s0 : Nat → α) :
    scan_scratch hw bs op input pad s0 (warps_no_ hw bs - 1) = foldSeg op input 0 (bs - 1) := by
  have hW := warps_no_pos hhw hbs
  have hprev : warps_no_ hw bs - 1 < warps_no_ hw bs := by omega
  rw [scan_scratch_spec hhw hbs hprev op hassoc input pad s0, last_lane_last hhw hbs]

theorem prev_warp_lt {hw bs r : Nat} (hhw : 0 < hw) (hbs : 0 < bs) (hr : r < bs) :
    warp_id hw bs r - 1 < warps_no_ hw bs := by
  have h : warp_id hw bs r < warps_no_ hw bs := div_lt_warps_no hhw hbs hr
  omega

theorem inclusive_s0_indep {α : Type} {hw bs r : Nat} (hhw : 0 < hw) (hbs : 0 < bs)
    (hr : r < bs) (op : α → α → α) (input pad s0 s0' : Nat → α) :
    inclusive_scan_single hw bs op input pad s0 r
      = inclusive_scan_single hw bs op input pad s0' r := by
  unfold inclusive_scan_single
  by_cases h0 : warp_id hw bs r = 0
  · rw [if_neg (by simp [h0]), if_neg (by simp [h0])]
  · rw [if_pos h0, if_pos h0,
      scan_scratch_indep hhw hbs (prev_warp_lt hhw hbs hr) op input pad s0 s0']

theorem excl_init_s0_indep {α : Type} {hw bs r : Nat} (hhw : 0 < hw) (hbs : 0 < bs)
    (hr : r < bs) (op : α → α → α) (input : Nat → α) (init : α) (junk pad s0 s0' : Nat → α) :
    exclusive_scan_single_init hw bs op input init junk pad s0 r
      = exclusive_scan_single_init hw bs op input init junk pad s0' r := by
  by_cases hl : lane_id hw bs r = 0
  · rw [excl_init_lane0 op input init junk pad s0 hl,
      excl_init_lane0 op input init junk pad s0' hl]
    unfold excl_warp_pre
    by_cases h0 : warp_id hw bs r = 0
    · rw [if_neg (by simp [h0]), if_neg (by simp [h0])]
    · rw [if_pos h0, if_pos h0,
        scan_scratch_indep hhw hbs (prev_warp_lt hhw hbs hr) op input pad s0 s0']
  · rw [excl_init_shift op input init junk pad s0 hl,
      excl_init_shift op input init junk pad s0' hl]
    have hr1 : r - 1 < bs := by omega
    unfold excl_combined excl_warp_pre
    by_cases h0 : warp_id hw bs (r - 1) = 0
    · rw [if_neg (by simp [h0]), if_neg (by simp [h0])]
    · rw [if_pos h0, if_pos h0,
        scan_scratch_indep hhw hbs (prev_warp_lt hhw hbs hr1) op input pad s0 s0']

theorem excl_noinit_s0_indep {α : Type} {hw bs r : Nat} (hhw : 0 < hw) (hbs : 0 < bs)
    (hr : r < bs) (op : α → α → α) (input uninit junk pad s0 s0' : Nat → α) :
    exclusive_scan_single_noinit hw bs op input uninit junk pad s0 r
      = exclusive_scan_single_noinit hw bs op input uninit junk pad s0' r := by
  by_cases hl : lane_id hw bs r = 0
  · rw [excl_noinit_lane0 op input uninit junk pad s0 hl,
      excl_noinit_lane0 op input uninit junk pad s0' hl]
    unfold excl_warp_pre_noinit
    by_cases h0 : warp_id hw bs r = 0
    · rw [if_neg (by simp [h0]), if_neg (by simp [h0])]
    · rw [if_pos h0, if_pos h0,
        scan_scratch_indep hhw hbs (prev_warp_lt hhw hbs hr) op input pad s0 s0']
  · rw [excl_noinit_shift op input uninit junk pad s0 hl,
      excl_noinit_shift op input uninit junk pad s0' hl]
    have hr1 : r - 1 < bs := by omega
    by_cases h0 : warp_id hw bs (r - 1) = 0
    · rw [excl_combined_noinit_w0 op input uninit pad s0 h0,
        excl_combined_noinit_w0 op input uninit pad s0' h0]
    · rw [excl_combined_noinit_w op input uninit pad s0 h0,
        excl_combined_noinit_w op input uninit pad s0' h0,
        scan_scratch_indep hhw hbs (prev_warp_lt hhw hbs hr1) op input pad s0 s0']

theorem items_s0_indep {α : Type} {hw bs K r : Nat} (hhw : 0 < hw) (hbs : 0 < bs)
    (hr : r < bs) (op : α → α → α) (input : Nat → Nat → α)
    (uninit junk pad s0 s0' : Nat → α) :
    ∀ i, inclusive_scan_items hw bs K op input uninit junk pad s0 r i
      = inclusive_scan_items hw bs K op input uninit junk pad s0' r i := by
  intro i
  induction i with
  | zero =>
    show items_out_first hw bs K op input uninit junk pad s0 r
      = items_out_first hw bs K op input uninit junk pad s0' r
    unfold items_out_first
    by_cases hr0 : r = 0
    · rw [if_pos hr0, if_pos hr0]
    · rw [if_neg hr0, if_neg hr0]
      congr 1
      exact excl_noinit_s0_indep hhw hbs hr op _ uninit junk pad s0 s0'
  | succ i ih =>
    show op (inclusive_scan_items hw bs K op input uninit junk pad s0 r i) (input r (i + 1))
      = op (inclusive_scan_items hw bs K op input uninit junk pad s0' r i) (input r (i + 1))
    rw [ih]

/-- C1: for every group size, every number of items per lane, every associative
operator and every input assignment, the single-value and the multi-item
inclusive scan entry points produce at flattened position r the left-to-right
combination of the inputs at flattened positions 0..r. -/
theorem c1_inclusive_scan_correct {α : Type} (hw bs K : Nat) (op : α → α → α)
    (input1 : Nat → α) (inputK : Nat → Nat → α) (uninit junk pad s0 : Nat → α)
    (hhw : 0 < hw) (hbs : 0 < bs) (hK : 0 < K)
    (hassoc : ∀ a b c : α, op (op a b) c = op a (op b c)) :
    (∀ r, r < bs →
        inclusive_scan_single hw bs op input1 pad s0 r = spec_combine op input1 r)
    ∧ (∀ r i, r < bs → i < K →
        inclusive_scan_items hw bs K op inputK uninit junk pad s0 r i
          = spec_combine op (flat_input K inputK) (r * K + i)) := by
  constructor
  · intro r hr
    rw [spec_combine_eq_foldSeg]
    exact inclusive_single_spec hhw hbs hr op hassoc input1 pad s0
  · intro r i hr hi
    rw [spec_combine_eq_foldSeg]
    exact items_spec hhw hbs hK op hassoc inputK uninit junk pad s0 hr i hi

theorem c1_witness :
    inclusive_scan_single 2 5 addOp rampF junkF junkF 4 = spec_combine addOp rampF 4
    ∧ inclusive_scan_items 2 5 3 addOp gridF junkF junkF junkF junkF 4 2
        = spec_combine addOp (flat_input 3 gridF) 14
    ∧ spec_combine addOp rampF 4 = 15
    ∧ spec_combine addOp (flat_input 3 gridF) 14 = 120 := by
  have h := c1_inclusive_scan_correct 2 5 3 addOp rampF gridF junkF junkF junkF junkF
    (by decide) (by decide) (by decide) (fun a b c => Nat.add_assoc a b c)
  exact ⟨h.1 4 (by decide), h.2 4 2 (by decide) (by decide), by decide, by decide⟩

/-- C2: the seeded exclusive scan outputs the seed at rank 0 and, at every
later rank, the combination of the previous rank's output with the previous
rank's input. -/
theorem c2_exclusive_seeded_correct {α : Type} (hw bs : Nat) (op : α → α → α)
    (input : Nat → α) (init : α) (junk pad s0 : Nat → α)
    (hhw : 0 < hw) (hbs : 0 < bs)
    (hassoc : ∀ a b c : α, op (op a b) c = op a (op b c)) :
    exclusive_scan_single_init hw bs op input init junk pad s0 0 = init
    ∧ ∀ r, 0 < r → r < bs →
        exclusive_scan_single_init hw bs op input init junk pad s0 r
          = op (exclusive_scan_single_init hw bs op input init junk pad s0 (r - 1))
              (input (r - 1)) := by
  constructor
  · rw [exclusive_init_spec hhw hbs hbs op hassoc input init junk pad s0, if_pos rfl]
  · intro r h1 hr
    have hr1 : r - 1 < bs := by omega
    rw [exclusive_init_spec hhw hbs hr op hassoc input init junk pad s0,
      exclusive_init_spec hhw hbs hr1 op hassoc input init junk pad s0,
      if_neg (by omega)]
    by_cases h2 : r - 1 = 0
    · rw [if_pos h2, h2]
      rfl
    · rw [if_neg h2, hassoc]
      congr 1
      have h3 : r - 1 = r - 1 - 1 + 1 := by omega
      conv_lhs => rw [h3]
      show op (foldSeg op input 0 (r - 1 - 1)) (input (0 + (r - 1 - 1) + 1))
        = op (foldSeg op input 0 (r - 1 - 1)) (input (r - 1))
      congr 1
      have hz : 0 + (r - 1 - 1) + 1 = r - 1 := by omega
      rw [hz]

theorem c2_witness :
    exclusive_scan_single_init 2 5 addOp rampF 7 junkF junkF junkF 0 = 7
    ∧ exclusive_scan_single_init 2 5 addOp rampF 7 junkF junkF junkF 3
        = addOp (exclusive_scan_single_init 2 5 addOp rampF 7 junkF junkF junkF 2) (rampF 2)
    ∧ exclusive_scan_single_init 2 5 addOp rampF 7 junkF junkF junkF 3 = 13 := by
  have h := c2_exclusive_seeded_correct 2 5 addOp rampF 7 junkF junkF junkF
    (by decide) (by decide) (fun a b c => Nat.add_assoc a b c)
  exact ⟨h.1, h.2 3 (by decide) (by decide), by decide⟩

/-- C3: every reduction-returning scan variant reports as reduction the final
element of the inclusive scan of the same inputs, the left-to-right
combination of every input in rank order, read from
storage.warp_prefixes[warps_no_ - 1]; the seed is not included. -/
theorem c3_reduction_consistency {α : Type} (hw bs K : Nat) (op : α → α → α)
    (input1 : Nat → α) (inputK : Nat → Nat → α) (init : α)
    (uninit junk pad s0 : Nat → α)
    (hhw : 0 < hw) (hbs : 0 < bs) (hK : 0 < K)
    (hassoc : ∀ a b c : α, op (op a b) c = op a (op b c)) :
    inclusive_scan_single_reduction hw bs op input1 pad s0
        = inclusive_scan_single hw bs op input1 pad s0 (bs - 1)
    ∧ exclusive_scan_single_init_reduction hw bs op input1 init pad s0
        = inclusive_scan_single hw bs op input1 pad s0 (bs - 1)
    ∧ inclusive_scan_items_reduction hw bs K op inputK pad s0
        = inclusive_scan_items hw bs K op inputK uninit junk pad s0 (bs - 1) (K - 1)
    ∧ inclusive_scan_single hw bs op input1 pad s0 (bs - 1)
        = spec_combine op input1 (bs - 1) := by
  have hbs1 : bs - 1 < bs := by omega
  have hK1 : K - 1 < K := by omega
  have hincl := inclusive_single_spec hhw hbs hbs1 op hassoc input1 pad s0
  refine ⟨?_, ?_, ?_, ?_⟩
  · show scan_scratch hw bs op input1 pad s0 (warps_no_ hw bs - 1) = _
    rw [reduction_spec hhw hbs op hassoc input1 pad s0, hincl]
  · show scan_scratch hw bs op input1 pad s0 (warps_no_ hw bs - 1) = _
    rw [reduction_spec hhw hbs op hassoc input1 pad s0, hincl]
  · show scan_scratch hw bs op (thread_scan_input K op inputK) pad s0 (warps_no_ hw bs - 1)
      = _
    rw [reduction_spec hhw hbs op hassoc _ pad s0,
      items_spec hhw hbs hK op hassoc inputK uninit junk pad s0 hbs1 (K - 1) hK1]
    exact thread_fold hK op hassoc inputK (bs - 1)
  · rw [hincl, spec_combine_eq_foldSeg]

theorem c3_witness :
    inclusive_scan_single_reduction 2 5 addOp rampF junkF junkF
        = inclusive_scan_single 2 5 addOp rampF junkF junkF 4
    ∧ inclusive_scan_items_reduction 2 5 3 addOp gridF junkF junkF
        = inclusive_scan_items 2 5 3 addOp gridF junkF junkF junkF junkF 4 2
    ∧ inclusive_scan_single_reduction 2 5 addOp rampF junkF junkF = 15
    ∧ inclusive_scan_items_reduction 2 5 3 addOp gridF junkF junkF = 120 := by
  have h := c3_reduction_consistency 2 5 3 addOp rampF gridF 7 junkF junkF junkF junkF
    (by decide) (by decide) (by decide) (fun a b c => Nat.add_assoc a b c)
  exact ⟨h.1, h.2.2.1, by decide, by decide⟩

/-- C4: also when the group size is not a multiple of the subgroup size, for
every subgroup w the unique lane whose total-capture guard targets
ScratchBuffer[w] is the lane of rank min((w+1)*SubgroupSize, GroupSize) - 1,
the capture phase stores that lane's local inclusive value, and the scan
output is still correct for every lane. -/
theorem c4_partial_final_subgroup {α : Type} (hw bs : Nat) (op : α → α → α)
    (input pad s0 : Nat → α) (hhw : 0 < hw) (hbs : 0 < bs)
    (hnd : ¬ warp_size_ hw bs ∣ bs)
    (hassoc : ∀ a b c : α, op (op a b) c = op a (op b c)) :
    (∀ w, w < warps_no_ hw bs → ∀ r, r < bs →
        ((r = last_lane hw bs (warp_id hw bs r) ∧ warp_id hw bs r = w)
          ↔ r = last_lane hw bs w))
    ∧ (∀ w, w < warps_no_ hw bs →
        capture_phase hw bs (warp_inclusive_scan (warp_size_ hw bs) op input) bs s0 w
          = warp_inclusive_scan (warp_size_ hw bs) op input (last_lane hw bs w))
    ∧ (∀ r, r < bs →
        inclusive_scan_single hw bs op input pad s0 r = spec_combine op input r) := by
  refine ⟨?_, ?_, ?_⟩
  · intro w hW r _
    constructor
    · rintro ⟨hg, hid⟩
      rw [← hid]
      exact hg
    · intro hEq
      have hdiv : warp_id hw bs r = w := by
        rw [hEq]
        exact (last_lane_div_mod hhw hbs hW).1
      refine ⟨?_, hdiv⟩
      rw [hdiv]
      exact hEq
  · intro w hW
    exact capture_phase_eq hhw hbs hW _ bs (last_lane_lt hbs w) s0
  · intro r hr
    rw [spec_combine_eq_foldSeg]
    exact inclusive_single_spec hhw hbs hr op hassoc input pad s0

theorem c4_witness :
    ¬ warp_size_ 2 5 ∣ 5
    ∧ capture_phase 2 5 (warp_inclusive_scan (warp_size_ 2 5) addOp rampF) 5 junkF 2
        = warp_inclusive_scan (warp_size_ 2 5) addOp rampF (last_lane 2 5 2)
    ∧ inclusive_scan_single 2 5 addOp rampF junkF junkF 4 = spec_combine addOp rampF 4
    ∧ inclusive_scan_single 2 5 addOp rampF junkF junkF 4 = 15 := by
  have h := c4_partial_final_subgroup 2 5 addOp rampF junkF junkF
    (by decide) (by decide) (by decide) (fun a b c => Nat.add_assoc a b c)
  exact ⟨by decide, h.2.1 2 (by decide), h.2.2 4 (by decide), by decide⟩

/-- C5: in the seedless exclusive scan only the lowest-rank lane of the whole
group reads the uninitialized warp prefix; every other lane's output is
independent of the uninitialized and shuffled-in junk values, lanes of
subgroup 0 other than the lowest receive the shifted-in local inclusive value
of the lane one rank lower, and lanes of later subgroups use the defined
prefix ScratchBuffer[warp_id - 1], the lowest-rank lane of such a subgroup
outputting exactly that prefix. -/
theorem c5_noinit_exclusive_definedness {α : Type} (hw bs : Nat) (op : α → α → α)
    (input uninit junk uninit' junk' pad s0 : Nat → α)
    (hhw : 0 < hw) (hbs : 0 < bs) :
    exclusive_scan_single_noinit hw bs op input uninit junk pad s0 0 = uninit 0
    ∧ (∀ r, 0 < r → r < bs →
        exclusive_scan_single_noinit hw bs op input uninit junk pad s0 r
          = exclusive_scan_single_noinit hw bs op input uninit' junk' pad s0 r)
    ∧ (∀ r, 0 < r → r < warp_size_ hw bs →
        exclusive_scan_single_noinit hw bs op input uninit junk pad s0 r
          = warp_inclusive_scan (warp_size_ hw bs) op input (r - 1))
    ∧ (∀ r, r < bs → warp_id hw bs r ≠ 0 → lane_id hw bs r = 0 →
        exclusive_scan_single_noinit hw bs op input uninit junk pad s0 r
          = scan_scratch hw bs op input pad s0 (warp_id hw bs r - 1))
    ∧ (∀ r, r < bs → warp_id hw bs r ≠ 0 → lane_id hw bs r ≠ 0 →
        exclusive_scan_single_noinit hw bs op input uninit junk pad s0 r
          = op (scan_scratch hw bs op input pad s0 (warp_id hw bs r - 1))
              (warp_inclusive_scan (warp_size_ hw bs) op input (r - 1))) := by
  refine ⟨exclusive_noinit_zero op input uninit junk pad s0, ?_, ?_, ?_, ?_⟩
  · intro r h1 _
    exact exclusive_noinit_indep hhw hbs h1 op input uninit junk uninit' junk' pad s0
  · intro r h1 hrw
    have hl : lane_id hw bs r ≠ 0 := by
      have hm : r % warp_size_ hw bs = r := Nat.mod_eq_of_lt hrw
      show r % warp_size_ hw bs ≠ 0
      omega
    have h0 : warp_id hw bs r = 0 := by
      show r / warp_size_ hw bs = 0
      exact Nat.div_eq_of_lt hrw
    rw [excl_noinit_shift op input uninit junk pad s0 hl]
    obtain ⟨hpd, _⟩ := pred_div_mod hhw hbs hl
    have hwid : warp_id hw bs (r - 1) = 0 := by
      show (r - 1) / warp_size_ hw bs = 0
      rw [hpd]
      exact h0
    rw [excl_combined_noinit_w0 op input uninit pad s0 hwid]
  · intro r _ h0 hl
    rw [excl_noinit_lane0 op input uninit junk pad s0 hl]
    unfold excl_warp_pre_noinit
    rw [if_pos h0]
  · intro r _ h0 hl
    rw [excl_noinit_shift op input uninit junk pad s0 hl]
    obtain ⟨hpd, _⟩ := pred_div_mod hhw hbs hl
    have hwid : warp_id hw bs (r - 1) = warp_id hw bs r := hpd
    rw [excl_combined_noinit_w op input uninit pad s0 (by rw [hwid]; exact h0), hwid]

theorem c5_witness :
    exclusive_scan_single_noinit 2 5 addOp rampF junkF junkF junkF junkF 0 = junkF 0
    ∧ exclusive_scan_single_noinit 2 5 addOp rampF junkF junkF junkF junkF 3
        = exclusive_scan_single_noinit 2 5 addOp rampF zeroF zeroF junkF junkF 3
    ∧ exclusive_scan_single_noinit 2 5 addOp rampF junkF junkF junkF junkF 1
        = warp_inclusive_scan (warp_size_ 2 5) addOp rampF 0
    ∧ exclusive_scan_single_noinit 2 5 addOp rampF junkF junkF junkF junkF 2
        = scan_scratch 2 5 addOp rampF junkF junkF (warp_id 2 5 2 - 1)
    ∧ exclusive_scan_single_noinit 2 5 addOp rampF junkF junkF junkF junkF 3
        = addOp (scan_scratch 2 5 addOp rampF junkF junkF (warp_id 2 5 3 - 1))
            (warp_inclusive_scan (warp_size_ 2 5) addOp rampF 2)
    ∧ exclusive_scan_single_noinit 2 5 addOp rampF junkF junkF junkF junkF 3 = 6 := by
  have h := c5_noinit_exclusive_definedness 2 5 addOp rampF junkF junkF zeroF zeroF
    junkF junkF (by decide) (by decide)
  exact ⟨h.1, h.2.1 3 (by decide) (by decide), h.2.2.1 1 (by decide) (by decide),
    h.2.2.2.1 2 (by decide) (by decide) (by decide),
    h.2.2.2.2 3 (by decide) (by decide) (by decide), by decide⟩

/-- C6: the prefix step has each of the first warps_no_ lanes read the
scratch entry at its own rank and scan with the subgroup primitive sized to
the next power of two at least warps_no_ (which is at least warps_no_ and a
power of two); padding lanes participate in the primitive but their values
never influence the first warps_no_ results, which afterwards hold the
inclusive combination of the subgroup totals 0..w. -/
theorem c6_prefix_scan_totals {α : Type} (hw bs : Nat) (op : α → α → α)
    (pad pad' s : Nat → α) (hhw : 0 < hw) (hbs : 0 < bs) :
    warps_no_ hw bs ≤ next_power_of_two (warps_no_ hw bs)
    ∧ (∃ k, next_power_of_two (warps_no_ hw bs) = 2 ^ k)
    ∧ (∀ w, w < warps_no_ hw bs →
        prefix_phase hw bs op pad s w
          = warp_inclusive_scan (next_power_of_two (warps_no_ hw bs)) op
              (prefix_values hw bs pad s) w)
    ∧ (∀ w, w < warps_no_ hw bs → prefix_phase hw bs op pad s w = spec_combine op s w)
    ∧ (∀ w, w < warps_no_ hw bs →
        prefix_phase hw bs op pad s w = prefix_phase hw bs op pad' s w) := by
  refine ⟨le_next_power_of_two _, next_power_of_two_pow _, ?_, ?_, ?_⟩
  · intro w hW
    show (if w < warps_no_ hw bs then _ else _) = _
    rw [if_pos hW]
  · intro w hW
    rw [prefix_phase_eq hW op pad s, spec_combine_eq_foldSeg]
    apply foldSeg_congr
    intro j hj
    have hjW : 0 + j < warps_no_ hw bs := by omega
    show prefix_values hw bs pad s (0 + j) = s (0 + j)
    unfold prefix_values
    rw [if_pos hjW]
  · intro w hW
    rw [prefix_phase_eq hW op pad s, prefix_phase_eq hW op pad' s]
    apply foldSeg_congr
    intro j hj
    have hjW : 0 + j < warps_no_ hw bs := by omega
    show prefix_values hw bs pad s (0 + j) = prefix_values hw bs pad' s (0 + j)
    unfold prefix_values
    rw [if_pos hjW, if_pos hjW]

theorem c6_witness :
    warps_no_ 2 5 ≤ next_power_of_two (warps_no_ 2 5)
    ∧ prefix_phase 2 5 addOp junkF rampF 2 = spec_combine addOp rampF 2
    ∧ prefix_phase 2 5 addOp junkF rampF 2 = prefix_phase 2 5 addOp zeroF rampF 2
    ∧ prefix_phase 2 5 addOp junkF rampF 2 = 6 := by
  have h := c6_prefix_scan_totals 2 5 addOp junkF zeroF rampF (by decide) (by decide)
  exact ⟨h.1, h.2.2.2.1 2 (by decide), h.2.2.2.2 2 (by decide), by decide⟩

/-- C7: on the concrete scenario with GroupSize 4, two items per lane,
integer addition and lane inputs [[1,2],[3,4],[5,6],[7,8]], the multi-item
inclusive scan returns the flattened outputs 1,3,6,10,15,21,28,36 with total
reduction 36, and the seeded exclusive scan with seed 0 over the flattened
inputs returns 0,1,3,6,10,15,21,28. -/
theorem c7_multi_item_scenario :
    (inclusive_scan_items 64 4 2 addOp c7_input junkF junkF junkF junkF 0 0 = 1
      ∧ inclusive_scan_items 64 4 2 addOp c7_input junkF junkF junkF junkF 0 1 = 3
      ∧ inclusive_scan_items 64 4 2 addOp c7_input junkF junkF junkF junkF 1 0 = 6
      ∧ inclusive_scan_items 64 4 2 addOp c7_input junkF junkF junkF junkF 1 1 = 10
      ∧ inclusive_scan_items 64 4 2 addOp c7_input junkF junkF junkF junkF 2 0 = 15
      ∧ inclusive_scan_items 64 4 2 addOp c7_input junkF junkF junkF junkF 2 1 = 21
      ∧ inclusive_scan_items 64 4 2 addOp c7_input junkF junkF junkF junkF 3 0 = 28
      ∧ inclusive_scan_items 64 4 2 addOp c7_input junkF junkF junkF junkF 3 1 = 36)
    ∧ inclusive_scan_items_reduction 64 4 2 addOp c7_input junkF junkF = 36
    ∧ (exclusive_scan_single_init 64 8 addOp (flat_input 2 c7_input) 0 junkF junkF junkF 0 = 0
      ∧ exclusive_scan_single_init 64 8 addOp (flat_input 2 c7_input) 0 junkF junkF junkF 1 = 1
      ∧ exclusive_scan_single_init 64 8 addOp (flat_input 2 c7_input) 0 junkF junkF junkF 2 = 3
      ∧ exclusive_scan_single_init 64 8 addOp (flat_input 2 c7_input) 0 junkF junkF junkF 3 = 6
      ∧ exclusive_scan_single_init 64 8 addOp (flat_input 2 c7_input) 0 junkF junkF junkF 4 = 10
      ∧ exclusive_scan_single_init 64 8 addOp (flat_input 2 c7_input) 0 junkF junkF junkF 5 = 15
      ∧ exclusive_scan_single_init 64 8 addOp (flat_input 2 c7_input) 0 junkF junkF junkF 6 = 21
      ∧ exclusive_scan_single_init 64 8 addOp (flat_input 2 c7_input) 0 junkF junkF junkF 7 = 28) := by
  decide

theorem phase0_mem {hw bs r : Nat} {a : MemAcc} (h : a ∈ phase0_acc hw bs r) :
    a = MemAcc.write (warp_id hw bs r) ∧ r = last_lane hw bs (warp_id hw bs r) := by
  unfold phase0_acc at h
  by_cases hg : r = last_lane hw bs (warp_id hw bs r)
  · rw [if_pos hg] at h
    exact ⟨List.mem_singleton.mp h, hg⟩
  · rw [if_neg hg] at h
    exact absurd h (List.not_mem_nil a)

theorem phase1_mem {hw bs r : Nat} {a : MemAcc} (h : a ∈ phase1_acc hw bs r) :
    (a = MemAcc.read r ∨ a = MemAcc.write r) ∧ r < warps_no_ hw bs := by
  unfold phase1_acc at h
  by_cases hg : r < warps_no_ hw bs
  · rw [if_pos hg] at h
    refine ⟨?_, hg⟩
    rcases List.mem_cons.mp h with h1 | h2
    · exact Or.inl h1
    · exact Or.inr (List.mem_singleton.mp h2)
  · rw [if_neg hg] at h
    exact absurd h (List.not_mem_nil a)

/-- C8: in the phase/barrier structure of a scan call (capture writes,
barrier, prefix-step reads and writes, barrier, read-only final phase), a
write and an access to the same scratch index by two different lanes never
occur in the same barrier-delimited phase, phase 0 contains no read, and the
final phase contains no write: every read of ScratchBuffer[i] is separated
from every other lane's write of index i by a full-group barrier. -/
theorem c8_scratch_phase_race_freedom (hw bs : Nat) (ph2 : Nat → List MemAcc)
    (hread : ∀ r a, a ∈ ph2 r → ∃ i, a = MemAcc.read i) :
    ∀ r q i, r ≠ q →
      (¬ MemAcc.read i ∈ phase0_acc hw bs r)
      ∧ (MemAcc.write i ∈ phase0_acc hw bs r → MemAcc.write i ∈ phase0_acc hw bs q → False)
      ∧ (MemAcc.write i ∈ phase1_acc hw bs r → MemAcc.read i ∈ phase1_acc hw bs q → False)
      ∧ (MemAcc.write i ∈ phase1_acc hw bs r → MemAcc.write i ∈ phase1_acc hw bs q → False)
      ∧ (¬ MemAcc.write i ∈ ph2 r) := by
  intro r q i hrq
  refine ⟨?_, ?_, ?_, ?_, ?_⟩
  · intro h
    obtain ⟨ha, _⟩ := phase0_mem h
    simp at ha
  · intro h1 h2
    obtain ⟨ha1, hg1⟩ := phase0_mem h1
    obtain ⟨ha2, hg2⟩ := phase0_mem h2
    injection ha1 with hi1
    injection ha2 with hi2
    rw [← hi1] at hg1
    rw [← hi2] at hg2
    exact hrq (hg1.trans hg2.symm)
  · intro h1 h2
    obtain ⟨ha1, _⟩ := phase1_mem h1
    obtain ⟨ha2, _⟩ := phase1_mem h2
    rcases ha1 with h | h
    · simp at h
    · injection h with hi1
      rcases ha2 with h' | h'
      · injection h' with hi2
        exact hrq (hi1.symm.trans hi2)
      · simp at h'
  · intro h1 h2
    obtain ⟨ha1, _⟩ := phase1_mem h1
    obtain ⟨ha2, _⟩ := phase1_mem h2
    rcases ha1 with h | h
    · simp at h
    · injection h with hi1
      rcases ha2 with h' | h'
      · simp at h'
      · injection h' with hi2
        exact hrq (hi1.symm.trans hi2)
  · intro h
    obtain ⟨j, hj⟩ := hread r _ h
    simp at hj

theorem c8_witness :
    (¬ MemAcc.read 0 ∈ phase0_acc 2 5 0)
    ∧ (MemAcc.write 0 ∈ phase0_acc 2 5 0 → MemAcc.write 0 ∈ phase0_acc 2 5 1 → False)
    ∧ (MemAcc.write 0 ∈ phase1_acc 2 5 0 → MemAcc.read 0 ∈ phase1_acc 2 5 1 → False)
    ∧ (MemAcc.write 0 ∈ phase1_acc 2 5 0 → MemAcc.write 0 ∈ phase1_acc 2 5 1 → False)
    ∧ (¬ MemAcc.write 0 ∈ phase2_acc_inclusive 2 5 0) :=
  c8_scratch_phase_race_freedom 2 5 (phase2_acc_inclusive 2 5)
    (fun r a h => by
      unfold phase2_acc_inclusive at h
      by_cases hg : warp_id 2 5 r ≠ 0
      · rw [if_pos hg] at h
        exact ⟨warp_id 2 5 r - 1, List.mem_singleton.mp h⟩
      · rw [if_neg hg] at h
        exact absurd h (List.not_mem_nil a))
    0 1 0 (by decide)

/-- C9: the outputs and the reduction of every scan variant do not depend on
the initial contents of the caller-supplied storage.warp_prefixes: two runs
differing only in that initial state produce identical results. -/
theorem c9_scratch_reuse_idempotence {α : Type} (hw bs K : Nat) (op : α → α → α)
    (input1 : Nat → α) (inputK : Nat → Nat → α) (init : α)
    (uninit junk pad s0 s0' : Nat → α) (hhw : 0 < hw) (hbs : 0 < bs) :
    (∀ r, r < bs → inclusive_scan_single hw bs op input1 pad s0 r
        = inclusive_scan_single hw bs op input1 pad s0' r)
    ∧ (∀ r, r < bs → exclusive_scan_single_init hw bs op input1 init junk pad s0 r
        = exclusive_scan_single_init hw bs op input1 init junk pad s0' r)
    ∧ (∀ r, r < bs → exclusive_scan_single_noinit hw bs op input1 uninit junk pad s0 r
        = exclusive_scan_single_noinit hw bs op input1 uninit junk pad s0' r)
    ∧ (∀ r i, r < bs → inclusive_scan_items hw bs K op inputK uninit junk pad s0 r i
        = inclusive_scan_items hw bs K op inputK uninit junk pad s0' r i)
    ∧ inclusive_scan_single_reduction hw bs op input1 pad s0
        = inclusive_scan_single_reduction hw bs op input1 pad s0'
    ∧ exclusive_scan_single_init_reduction hw bs op input1 init pad s0
        = exclusive_scan_single_init_reduction hw bs op input1 init pad s0'
    ∧ inclusive_scan_items_reduction hw bs K op inputK pad s0
        = inclusive_scan_items_reduction hw bs K op inputK pad s0' := by
  have hW := warps_no_pos hhw hbs
  have hprev : warps_no_ hw bs - 1 < warps_no_ hw bs := by omega
  refine ⟨?_, ?_, ?_, ?_, ?_, ?_, ?_⟩
  · intro r hr
    exact inclusive_s0_indep hhw hbs hr op input1 pad s0 s0'
  · intro r hr
    exact excl_init_s0_indep hhw hbs hr op input1 init junk pad s0 s0'
  · intro r hr
    exact excl_noinit_s0_indep hhw hbs hr op input1 uninit junk pad s0 s0'
  · intro r i hr
    exact items_s0_indep hhw hbs hr op inputK uninit junk pad s0 s0' i
  · exact scan_scratch_indep hhw hbs hprev op input1 pad s0 s0'
  · exact scan_scratch_indep hhw hbs hprev op input1 pad s0 s0'
  · exact scan_scratch_indep hhw hbs hprev op _ pad s0 s0'

theorem c9_witness :
    inclusive_scan_single 2 5 addOp rampF junkF zeroF 4
        = inclusive_scan_single 2 5 addOp rampF junkF junkF 4
    ∧ exclusive_scan_single_init 2 5 addOp rampF 7 junkF junkF zeroF 3
        = exclusive_scan_single_init 2 5 addOp rampF 7 junkF junkF junkF 3
    ∧ inclusive_scan_items 2 5 3 addOp gridF junkF junkF junkF zeroF 4 2
        = inclusive_scan_items 2 5 3 addOp gridF junkF junkF junkF junkF 4 2
    ∧ inclusive_scan_single_reduction 2 5 addOp rampF junkF zeroF
        = inclusive_scan_single_reduction 2 5 addOp rampF junkF junkF
    ∧ inclusive_scan_single 2 5 addOp rampF junkF zeroF 4 = 15 := by
  have h := c9_scratch_reuse_idempotence 2 5 3 addOp rampF gridF 7 junkF junkF junkF
    zeroF junkF (by decide) (by decide)
  exact ⟨h.1 4 (by decide), h.2.1 3 (by decide), h.2.2.2.1 4 2 (by decide),
    h.2.2.2.2.1, by decide⟩

/-- C10: no output item of the multi-item inclusive scan depends on the
uninitialized thread prefix of the seedless exclusive scan: rank 0 sets its
item 0 to input[0] directly, and every lane's every item is unchanged when
the uninitialized and shuffled-in junk values change. -/
theorem c10_items_defined {α : Type} (hw bs K : Nat) (op : α → α → α)
    (input : Nat → Nat → α) (uninit junk uninit' junk' pad s0 : Nat → α)
    (hhw : 0 < hw) (hbs : 0 < bs) (hK : 0 < K) :
    inclusive_scan_items hw bs K op input uninit junk pad s0 0 0 = input 0 0
    ∧ ∀ r i, r < bs →
        inclusive_scan_items hw bs K op input uninit junk pad s0 r i
          = inclusive_scan_items hw bs K op input uninit' junk' pad s0 r i := by
  constructor
  · show items_out_first hw bs K op input uninit junk pad s0 0 = input 0 0
    unfold items_out_first
    rw [if_pos rfl]
  · intro r i hr
    induction i with
    | zero =>
      show items_out_first hw bs K op input uninit junk pad s0 r
        = items_out_first hw bs K op input uninit' junk' pad s0 r
      unfold items_out_first
      by_cases hr0 : r = 0
      · rw [if_pos hr0, if_pos hr0]
      · rw [if_neg hr0, if_neg hr0]
        congr 1
        exact exclusive_noinit_indep hhw hbs (Nat.pos_of_ne_zero hr0) op _
          uninit junk uninit' junk' pad s0
    | succ i ih =>
      show op (inclusive_scan_items hw bs K op input uninit junk pad s0 r i)
          (input r (i + 1))
        = op (inclusive_scan_items hw bs K op input uninit' junk' pad s0 r i)
            (input r (i + 1))
      rw [ih]

theorem c10_witness :
    inclusive_scan_items 2 5 3 addOp gridF junkF junkF junkF junkF 0 0 = gridF 0 0
    ∧ inclusive_scan_items 2 5 3 addOp gridF junkF junkF junkF junkF 4 2
        = inclusive_scan_items 2 5 3 addOp gridF zeroF zeroF junkF junkF 4 2
    ∧ inclusive_scan_items 2 5 3 addOp gridF junkF junkF junkF junkF 4 2 = 120 := by
  have h := c10_items_defined 2 5 3 addOp gridF junkF junkF zeroF zeroF junkF junkF
    (by decide) (by decide) (by decide)
  exact ⟨h.1, h.2 4 2 (by decide), by decide⟩

end RocPrim
